import Mathlib

/-!
Shallow embedding of `pysisyphus/optimizers/guess_hessians.py`: the four
diagonal Hessian-guess generators (`simple_guess`, `fischer_guess`,
`lindh_guess`, `swart_guess`) together with the covalent-radius lookup
`get_pair_covalent_radii` and the bond-connectivity decision they rely on.
Python floats are modelled as real numbers; `dict` indexing that can raise
`KeyError` is modelled with `Except`.
-/

namespace GuessHessians

/-- Errors a guess generator can raise: `unknownElement` models the `KeyError`
from `COVALENT_RADII[a]` for a symbol absent from the table, `keyError` the
arity-dispatch `KeyError` from `h_funcs[len(primitive.inds)]` or
`k_dict[len(primitive.inds)]`. -/
inductive GuessErr where
  | unknownElement
  | keyError
deriving DecidableEq

/-- A primitive internal coordinate, carried as its tuple of atom indices
(`primitive.inds`): 2 indices for a bond, 3 for a bend (central atom in the
middle), 4 for a dihedral (central atoms at positions 1 and 2). -/
structure Primitive where
  inds : List ℕ
deriving DecidableEq

instance : Inhabited Primitive := ⟨⟨[]⟩⟩

/-- A geometry snapshot as the guess generators consume it: element symbols
(`geom.atoms`), Cartesian positions (`geom.coords3d`), the primitive
coordinate set `geom.internal._prim_coords` and the connectivity threshold
factor `geom.internal.bond_factor`. -/
structure Geometry where
  atoms : List String
  coords3d : List (ℝ × ℝ × ℝ)
  prims : List Primitive
  bond_factor : ℝ

/-- Python's `str.lower`, modelled character-wise (element symbols are
ASCII). -/
def strLower (s : String) : String := ⟨s.data.map Char.toLower⟩

/-- `atoms = [a.lower() for a in geom.atoms]`. -/
def Geometry.latoms (g : Geometry) : List String := g.atoms.map strLower

/-- The number of atoms of the geometry. -/
def Geometry.natoms (g : Geometry) : ℕ := g.atoms.length

/-- Euclidean distance between two Cartesian points (what scipy `pdist`
computes pairwise). -/
noncomputable def dist3 (p q : ℝ × ℝ × ℝ) : ℝ :=
  Real.sqrt ((p.1 - q.1) ^ 2 + (p.2.1 - q.2.1) ^ 2 + (p.2.2 - q.2.2) ^ 2)

/-- Entry `(i, j)` of `dist_mat = squareform(pdist(geom.coords3d))`: the
interatomic distance, with the zero diagonal that `squareform` produces. -/
noncomputable def Geometry.dist (g : Geometry) (i j : ℕ) : ℝ :=
  if i = j then 0 else dist3 (g.coords3d.getD i (0, 0, 0)) (g.coords3d.getD j (0, 0, 0))

/-- Left-to-right traversal of a list by a fallible function: the
`for primitive in ...: h_diag.append(f(primitive))` loop (and the list
comprehension over atoms), stopping at the first raised error. -/
def mapE {α β : Type} (f : α → Except GuessErr β) : List α → Except GuessErr (List β)
  | [] => .ok []
  | a :: as => do
    let b ← f a
    let bs ← mapE f as
    pure (b :: bs)

/-- The per-atom part of `get_pair_covalent_radii`:
`[COVALENT_RADII[a] for a in atoms]` over the lower-cased symbols; a symbol
absent from the table raises `KeyError`.  The table itself (from
`pysisyphus.elem_data`) is a parameter `cr`. -/
def covRadii (cr : String → Option ℝ) (g : Geometry) : Except GuessErr (List ℝ) :=
  mapE (fun a => match cr a with
    | some r => .ok r
    | none => .error .unknownElement) g.latoms

/-- Entry `(i, j)` of `squareform(get_pair_covalent_radii(geom))`: the
covalent-radius sum `r1 + r2` of the pair, with the zero diagonal of
`squareform`. -/
def pairCov (radii : List ℝ) (i j : ℕ) : ℝ :=
  if i = j then 0 else radii.getD i 0 + radii.getD j 0

/-- Entry `(i, j)` of `bond_mat = squareform(cdm <= pair_cov_radii * bond_factor)`:
two distinct atoms are bonded iff their distance is at most their
covalent-radius sum times `bond_factor` (the diagonal that `squareform`
restores is `False`). -/
def Bonded (g : Geometry) (radii : List ℝ) (i j : ℕ) : Prop :=
  i ≠ j ∧ g.dist i j ≤ pairCov radii i j * g.bond_factor

noncomputable instance (g : Geometry) (radii : List ℝ) (i j : ℕ) :
    Decidable (Bonded g radii i j) :=
  Classical.dec _

/-- `bond_mat[a].sum()`: the number of atoms bonded to atom `a`. -/
noncomputable def deg (g : Geometry) (radii : List ℝ) (a : ℕ) : ℕ :=
  ((Finset.range g.natoms).filter (fun j => Bonded g radii a j)).card

/-- `tors_atom_bonds[(a, b)] = bond_mat[a].sum() + bond_mat[b].sum() - 2`;
2 is subtracted because the a-b bond appears in both rows of `bond_mat`. -/
noncomputable def tors_atom_bonds (g : Geometry) (radii : List ℝ) (a b : ℕ) : ℤ :=
  (deg g radii a : ℤ) + (deg g radii b : ℤ) - 2

/-- `fischer_guess.h_bond`. -/
noncomputable def fischer_h_bond (g : Geometry) (radii : List ℝ) (a b : ℕ) : ℝ :=
  0.3601 * Real.exp (-1.944 * (g.dist a b - pairCov radii a b))

/-- `fischer_guess.h_bend`; the indices arrive as `b, a, c = bend.inds`, with
the central atom `a` in the middle.  The Python expression is
`0.089 + 0.11/(r_ab_cov*r_ac_cov)**(-0.42) * exp(-0.44*(...))`, i.e. the
division binds to the negatively-exponentiated power. -/
noncomputable def fischer_h_bend (g : Geometry) (radii : List ℝ) (b a c : ℕ) : ℝ :=
  0.089 + 0.11 / (pairCov radii a b * pairCov radii a c) ^ (-0.42 : ℝ) *
    Real.exp (-0.44 * (g.dist a b + g.dist a c - pairCov radii a b - pairCov radii a c))

/-- `fischer_guess.h_dihedral`; of `c, a, b, d = dihedral.inds` only the
central atoms `a, b` (positions 1 and 2) enter the formula. -/
noncomputable def fischer_h_dihedral (g : Geometry) (radii : List ℝ) (a b : ℕ) : ℝ :=
  0.0015 + 14.0 * (tors_atom_bonds g radii a b : ℝ) ^ (0.57 : ℝ) /
      (g.dist a b * pairCov radii a b) ^ (4.0 : ℝ) *
    Real.exp (-2.85 * (g.dist a b - pairCov radii a b))

/-- One step of the `fischer_guess` loop: dispatch on `len(primitive.inds)`
through `h_funcs` (2 bond, 3 bend, 4 dihedral); any other arity raises
`KeyError`. -/
noncomputable def fischer_prim (g : Geometry) (radii : List ℝ) (p : Primitive) :
    Except GuessErr ℝ :=
  match p.inds with
  | [a, b] => .ok (fischer_h_bond g radii a b)
  | [b, a, c] => .ok (fischer_h_bend g radii b a c)
  | [_, a, b, _] => .ok (fischer_h_dihedral g radii a b)
  | _ => .error .keyError

/-- `fischer_guess`: the list of diagonal entries `h_diag` that
`np.diagflat` turns into the guess Hessian. -/
noncomputable def fischer_guess (cr : String → Option ℝ) (g : Geometry) :
    Except GuessErr (List ℝ) := do
  let radii ← covRadii cr g
  mapE (fischer_prim g radii) g.prims

/-- `first_period = "h he".split()` of `lindh_guess`. -/
def first_period : List String := ["h", "he"]

/-- `lindh_guess.get_alpha`. -/
def get_alpha (atom1 atom2 : String) : ℝ :=
  if atom1 ∈ first_period ∧ atom2 ∈ first_period then 1
  else if atom1 ∈ first_period ∨ atom2 ∈ first_period then 0.3949
  else 0.28

/-- Entry `(i, j)` of
`rhos = squareform(np.exp(alphas * (pair_cov_radii**2 - cdm**2)))`
of `lindh_guess`, with the zero diagonal of `squareform`. -/
noncomputable def lindh_rho (g : Geometry) (radii : List ℝ) (i j : ℕ) : ℝ :=
  if i = j then 0
  else Real.exp (get_alpha (g.latoms.getD i "") (g.latoms.getD j "") *
    (pairCov radii i j ^ 2 - g.dist i j ^ 2))

/-- The inner loop
`for i in range(primitive.inds.size - 1): rho_product *= rhos[i1, i2]`
over the consecutive index pairs of a primitive (the product is
re-associated; real multiplication is associative and commutative). -/
noncomputable def rho_product (rho : ℕ → ℕ → ℝ) : List ℕ → ℝ
  | i :: j :: rest => rho i j * rho_product rho (j :: rest)
  | _ => 1

/-- `k_dict` of `lindh_guess`: 0.45 stretches, 0.15 bends, 0.005 torsions;
any other arity raises `KeyError`. -/
noncomputable def lindh_k : ℕ → Except GuessErr ℝ
  | 2 => .ok 0.45
  | 3 => .ok 0.15
  | 4 => .ok 0.005
  | _ => .error .keyError

/-- One step of the `lindh_guess` loop:
`k_diag.append(k_dict[len(primitive.inds)] * rho_product)`. -/
noncomputable def lindh_prim (g : Geometry) (radii : List ℝ) (p : Primitive) :
    Except GuessErr ℝ := do
  let k ← lindh_k p.inds.length
  pure (k * rho_product (lindh_rho g radii) p.inds)

/-- `lindh_guess`: the list of diagonal entries `k_diag` that `np.diagflat`
turns into the guess Hessian. -/
noncomputable def lindh_guess (cr : String → Option ℝ) (g : Geometry) :
    Except GuessErr (List ℝ) := do
  let radii ← covRadii cr g
  mapE (lindh_prim g radii) g.prims

/-- `h_dict` of `simple_guess`: 0.5 stretches, 0.2 bends, 0.1 torsions;
any other arity raises `KeyError`. -/
noncomputable def simple_k : ℕ → Except GuessErr ℝ
  | 2 => .ok 0.5
  | 3 => .ok 0.2
  | 4 => .ok 0.1
  | _ => .error .keyError

/-- `simple_guess`: the list of diagonal entries that `np.diagflat` turns
into the guess Hessian. -/
noncomputable def simple_guess (g : Geometry) : Except GuessErr (List ℝ) :=
  mapE (fun p => simple_k p.inds.length) g.prims

/-- Entry `(i, j)` of `rhos = squareform(np.exp(-cdm/pair_cov_radii + 1))`
of `swart_guess`, with the zero diagonal of `squareform`. -/
noncomputable def swart_rho (g : Geometry) (radii : List ℝ) (i j : ℕ) : ℝ :=
  if i = j then 0 else Real.exp (-g.dist i j / pairCov radii i j + 1)

/-- `k_dict` of `swart_guess`: 0.35 stretches, 0.15 bends, 0.005 torsions. -/
noncomputable def swart_k : ℕ → Except GuessErr ℝ
  | 2 => .ok 0.35
  | 3 => .ok 0.15
  | 4 => .ok 0.005
  | _ => .error .keyError

/-- One step of the `swart_guess` loop. -/
noncomputable def swart_prim (g : Geometry) (radii : List ℝ) (p : Primitive) :
    Except GuessErr ℝ := do
  let k ← swart_k p.inds.length
  pure (k * rho_product (swart_rho g radii) p.inds)

/-- `swart_guess`: the list of diagonal entries that `np.diagflat` turns
into the guess Hessian. -/
noncomputable def swart_guess (cr : String → Option ℝ) (g : Geometry) :
    Except GuessErr (List ℝ) := do
  let radii ← covRadii cr g
  mapE (swart_prim g radii) g.prims

/-- `np.diagflat(h_diag)`: the square matrix with `h_diag` on the diagonal
and zeros elsewhere. -/
noncomputable def diagflat (d : List ℝ) (i j : ℕ) : ℝ :=
  if i = j then d.getD i 0 else 0

/-- Modelled from the spec: the Swart pair function as the spec states it,
`rho(i, j) = exp(1 - r_ij / r_cov_ij)` with `r_cov_ij` the covalent-radius
sum of the pair (no `squareform` zero diagonal is mentioned there). -/
noncomputable def swart_spec_rho (g : Geometry) (radii : List ℝ) (i j : ℕ) : ℝ :=
  Real.exp (1 - g.dist i j / (radii.getD i 0 + radii.getD j 0))

/-- Modelled from the spec: the per-type constants the spec assigns to the
Swart scheme, `k_bond = 0.35`, `k_bend = 0.15`, `k_tors = 0.005`. -/
noncomputable def swart_spec_k : ℕ → Except GuessErr ℝ
  | 2 => .ok 0.35
  | 3 => .ok 0.15
  | 4 => .ok 0.005
  | _ => .error .keyError

/-- Modelled from the spec: the Swart guess described as "the Lindh
chain-product scheme with the pair function replaced by
`rho(i,j) = exp(1 - r_ij/r_cov_ij)`" and the constants replaced by
`swart_spec_k`: each primitive's force constant is the constant for its type
times the product of `rho` over consecutive atom pairs of its index tuple. -/
noncomputable def swart_spec_prim (g : Geometry) (radii : List ℝ) (p : Primitive) :
    Except GuessErr ℝ := do
  let k ← swart_spec_k p.inds.length
  pure (k * rho_product (swart_spec_rho g radii) p.inds)

noncomputable def swart_spec_guess (cr : String → Option ℝ) (g : Geometry) :
    Except GuessErr (List ℝ) := do
  let radii ← covRadii cr g
  mapE (swart_spec_prim g radii) g.prims

/-! ### Generic lemmas about the fallible traversal -/

theorem mapE_get {α β : Type} (f : α → Except GuessErr β) (a₀ : α) (b₀ : β) :
    ∀ (l : List α) (d : List β), mapE f l = .ok d →
      d.length = l.length ∧ ∀ k, k < l.length → f (l.getD k a₀) = .ok (d.getD k b₀) := by
  intro l
  induction l with
  | nil =>
    intro d h
    simp only [mapE] at h
    cases h
    exact ⟨rfl, fun k hk => absurd hk (by simp)⟩
  | cons a as ih =>
    intro d h
    simp only [mapE] at h
    cases hfa : f a with
    | error e => rw [hfa] at h; simp [Bind.bind, Except.bind] at h
    | ok b =>
      rw [hfa] at h
      cases hrec : mapE f as with
      | error e => rw [hrec] at h; simp [Bind.bind, Except.bind] at h
      | ok bs =>
        rw [hrec] at h
        simp only [Bind.bind, Except.bind, pure, Except.pure, Except.ok.injEq] at h
        cases h
        obtain ⟨hlen, hget⟩ := ih bs hrec
        refine ⟨by simp [hlen], ?_⟩
        intro k hk
        cases k with
        | zero => simpa using hfa
        | succ k =>
          simp only [List.getD_cons_succ]
          exact hget k (by simpa using hk)

theorem mapE_forall {α β : Type} (f : α → Except GuessErr β) (P : β → Prop) :
    ∀ l : List α, (∀ a ∈ l, ∃ b, f a = .ok b ∧ P b) →
      ∃ d, mapE f l = .ok d ∧ d.length = l.length ∧ ∀ x ∈ d, P x := by
  intro l
  induction l with
  | nil => intro _; exact ⟨[], rfl, rfl, by simp⟩
  | cons a as ih =>
    intro h
    obtain ⟨b, hb, hPb⟩ := h a (by simp)
    obtain ⟨d, hd, hlen, hP⟩ := ih (fun x hx => h x (by simp [hx]))
    refine ⟨b :: d, ?_, by simp [hlen], ?_⟩
    · simp only [mapE, hb, hd, Bind.bind, Except.bind, pure, Except.pure]
    · intro x hx
      rcases List.mem_cons.mp hx with hx | hx
      · cases hx; exact hPb
      · exact hP x hx

theorem mapE_congr {α β : Type} (f f' : α → Except GuessErr β) :
    ∀ l : List α, (∀ a ∈ l, f a = f' a) → mapE f l = mapE f' l := by
  intro l
  induction l with
  | nil => intro _; rfl
  | cons a as ih =>
    intro h
    simp only [mapE, h a (by simp), ih (fun x hx => h x (by simp [hx]))]

theorem mapE_error {α β : Type} (f : α → Except GuessErr β) (e : GuessErr)
    (hall : ∀ x, f x = .error e ∨ ∃ b, f x = .ok b) :
    ∀ l : List α, (∃ a ∈ l, f a = .error e) → mapE f l = .error e := by
  intro l
  induction l with
  | nil => intro h; simp at h
  | cons a as ih =>
    intro h
    rcases hall a with ha | ⟨b, hb⟩
    · simp only [mapE, ha, Bind.bind, Except.bind]
    · obtain ⟨x, hx, hxe⟩ := h
      rcases List.mem_cons.mp hx with hx | hx
      · cases hx; rw [hb] at hxe; cases hxe
      · simp only [mapE, hb, Bind.bind, Except.bind, ih ⟨x, hx, hxe⟩]

/-! ### Symmetry of the pairwise data -/

theorem dist3_symm (p q : ℝ × ℝ × ℝ) : dist3 p q = dist3 q p := by
  unfold dist3
  ring_nf

theorem Geometry.dist_symm (g : Geometry) (i j : ℕ) : g.dist i j = g.dist j i := by
  unfold Geometry.dist
  rcases eq_or_ne i j with h | h
  · simp [h]
  · rw [if_neg h, if_neg (Ne.symm h), dist3_symm]

theorem pairCov_symm (radii : List ℝ) (i j : ℕ) : pairCov radii i j = pairCov radii j i := by
  unfold pairCov
  rcases eq_or_ne i j with h | h
  · simp [h]
  · rw [if_neg h, if_neg (Ne.symm h), add_comm]

theorem Bonded.symm {g : Geometry} {radii : List ℝ} {i j : ℕ}
    (h : Bonded g radii i j) : Bonded g radii j i := by
  obtain ⟨hne, hle⟩ := h
  exact ⟨hne.symm, by rwa [Geometry.dist_symm g j i, pairCov_symm radii j i]⟩

theorem getD_mem_of_lt {l : List ℝ} {k : ℕ} (h : k < l.length) : l.getD k 0 ∈ l := by
  rw [List.getD_eq_getElem l 0 h]
  exact List.getElem_mem h

/-! ### Concrete instances used to exercise the theorems -/

/-- A small covalent-radius table (radii in Bohr-like units). -/
noncomputable def crW : String → Option ℝ := fun s =>
  if s = "h" then some 1 else if s = "o" then some 1 else none

/-- A 3-atom water-like geometry: two O-H bonds and one H-O-H bend. -/
noncomputable def water : Geometry :=
  { atoms := ["o", "h", "h"]
    coords3d := [(0, 0, 0), (1, 0, 0), (0, 1, 0)]
    prims := [⟨[0, 1]⟩, ⟨[0, 2]⟩, ⟨[1, 0, 2]⟩]
    bond_factor := 1.3 }

/-- The same geometry with upper-cased element symbols. -/
noncomputable def waterU : Geometry :=
  { atoms := ["O", "H", "H"]
    coords3d := [(0, 0, 0), (1, 0, 0), (0, 1, 0)]
    prims := [⟨[0, 1]⟩, ⟨[0, 2]⟩, ⟨[1, 0, 2]⟩]
    bond_factor := 1.3 }

/-- A 4-atom chain with bonds, bends and two dihedrals that share the
central pair (1, 2). -/
noncomputable def chain4 : Geometry :=
  { atoms := ["h", "h", "h", "h"]
    coords3d := [(0, 0, 0), (1, 0, 0), (2, 0, 0), (3, 0, 0)]
    prims := [⟨[0, 1]⟩, ⟨[1, 2]⟩, ⟨[2, 3]⟩, ⟨[0, 1, 2]⟩, ⟨[1, 2, 3]⟩,
              ⟨[0, 1, 2, 3]⟩, ⟨[3, 1, 2, 0]⟩]
    bond_factor := 1 }

/-- Two atoms whose distance is exactly at the bonding threshold. -/
noncomputable def geomPair : Geometry :=
  { atoms := ["h", "h"]
    coords3d := [(0, 0, 0), (2, 0, 0)]
    prims := [⟨[0, 1]⟩]
    bond_factor := 1 }

/-- A geometry with an element symbol absent from `crW`. -/
noncomputable def geomX : Geometry :=
  { atoms := ["x"]
    coords3d := [(0, 0, 0)]
    prims := []
    bond_factor := 1 }

/-! ### C1: the simple guess -/

theorem simple_k_eq {n : ℕ} (h : n = 2 ∨ n = 3 ∨ n = 4) :
    simple_k n = .ok (if n = 2 then (0.5 : ℝ) else if n = 3 then 0.2 else 0.1) := by
  rcases h with h | h | h <;> subst h <;> rfl

/-- C1: for every geometry whose primitives are bonds, bends and dihedrals,
the simple-model guess Hessian is diagonal with entry k equal to 0.5 if
primitive k has 2 atom indices (bond), 0.2 if it has 3 (bend) and 0.1 if it
has 4 (dihedral). -/
theorem C1_simple_guess (g : Geometry)
    (h : ∀ p ∈ g.prims, p.inds.length = 2 ∨ p.inds.length = 3 ∨ p.inds.length = 4) :
    simple_guess g = .ok (g.prims.map fun p =>
      if p.inds.length = 2 then (0.5 : ℝ)
      else if p.inds.length = 3 then 0.2 else 0.1) ∧
    ∀ i j, i ≠ j → diagflat (g.prims.map fun p =>
      if p.inds.length = 2 then (0.5 : ℝ)
      else if p.inds.length = 3 then 0.2 else 0.1) i j = 0 := by
  constructor
  · unfold simple_guess
    have key : ∀ l : List Primitive,
        (∀ p ∈ l, p.inds.length = 2 ∨ p.inds.length = 3 ∨ p.inds.length = 4) →
        mapE (fun p => simple_k p.inds.length) l = .ok (l.map fun p =>
          if p.inds.length = 2 then (0.5 : ℝ)
          else if p.inds.length = 3 then 0.2 else 0.1) := by
      intro l
      induction l with
      | nil => intro _; rfl
      | cons p ps ih =>
        intro hl
        have hp := simple_k_eq (hl p (by simp))
        have hps := ih (fun q hq => hl q (by simp [hq]))
        simp only [mapE, hp, hps, List.map_cons, Bind.bind, Except.bind, pure, Except.pure]
    exact key g.prims h
  · intro i j hij
    unfold diagflat
    rw [if_neg hij]

/-- Witness for C1: the water-like geometry with primitive set
[bond, bond, bend] yields the diagonal [0.5, 0.5, 0.2]. -/
theorem C1_simple_guess_witness :
    simple_guess water = .ok [(0.5 : ℝ), 0.5, 0.2] := by
  have h := C1_simple_guess water (by decide)
  rw [h.1]
  rfl

/-! ### C6: the bond-connectivity decision -/

/-- C6: two distinct atoms are classified as bonded iff their interatomic
distance is at most `bond_factor` times the sum of their covalent radii;
the boundary is inclusive. -/
theorem C6_bonded_iff (g : Geometry) (radii : List ℝ) (i j : ℕ) (h : i ≠ j) :
    Bonded g radii i j ↔
      g.dist i j ≤ g.bond_factor * (radii.getD i 0 + radii.getD j 0) := by
  unfold Bonded pairCov
  rw [if_neg h, mul_comm]
  exact ⟨fun hb => hb.2, fun hb => ⟨h, hb⟩⟩

/-- Witness for C6: two atoms at distance exactly
`bond_factor * (r_cov + r_cov)` are classified as bonded. -/
theorem C6_bonded_iff_witness :
    geomPair.dist 0 1 = geomPair.bond_factor * ((1 : ℝ) + 1) ∧
      Bonded geomPair [1, 1] 0 1 := by
  have hd : geomPair.dist 0 1 = 2 := by
    show dist3 (0, 0, 0) (2, 0, 0) = 2
    unfold dist3
    rw [show ((0 : ℝ) - 2) ^ 2 + ((0 : ℝ) - 0) ^ 2 + ((0 : ℝ) - 0) ^ 2 = 2 ^ 2 by norm_num,
      Real.sqrt_sq (by norm_num)]
  constructor
  · rw [hd]; norm_num [geomPair]
  · exact (C6_bonded_iff geomPair [1, 1] 0 1 (by decide)).mpr
      (by rw [hd]; norm_num [geomPair])

/-! ### C7: unknown elements abort the table-consulting guesses -/

theorem covRadii_error {cr : String → Option ℝ} {g : Geometry} {a : String}
    (ha : a ∈ g.atoms) (hnone : cr (strLower a) = none) :
    covRadii cr g = .error .unknownElement := by
  unfold covRadii
  apply mapE_error
  · intro x
    cases hx : cr x with
    | none => exact Or.inl rfl
    | some r => exact Or.inr ⟨r, rfl⟩
  · exact ⟨strLower a, List.mem_map_of_mem strLower ha, by rw [hnone]⟩

/-- C7: a geometry containing an element symbol absent from the
covalent-radius table makes every table-consulting guess generator (Fischer,
Lindh, Swart) raise an unknown-element error instead of returning a matrix. -/
theorem C7_unknown_element (cr : String → Option ℝ) (g : Geometry) (a : String)
    (ha : a ∈ g.atoms) (hnone : cr (strLower a) = none) :
    fischer_guess cr g = .error .unknownElement ∧
      lindh_guess cr g = .error .unknownElement ∧
      swart_guess cr g = .error .unknownElement := by
  have hc := covRadii_error ha hnone
  refine ⟨?_, ?_, ?_⟩ <;>
    simp only [fischer_guess, lindh_guess, swart_guess, hc, Bind.bind, Except.bind]

/-- Witness for C7: the symbol "x" is absent from the table `crW`, so all
three table-consulting guesses raise on `geomX`. -/
theorem C7_unknown_element_witness :
    fischer_guess crW geomX = .error .unknownElement ∧
      lindh_guess crW geomX = .error .unknownElement ∧
      swart_guess crW geomX = .error .unknownElement :=
  C7_unknown_element crW geomX "x" (by simp [geomX]) (by rfl)

/-! ### The Fischer guess succeeds on well-formed primitive sets -/

theorem fischer_prim_ok (g : Geometry) (radii : List ℝ) (p : Primitive)
    (h : p.inds.length = 2 ∨ p.inds.length = 3 ∨ p.inds.length = 4) :
    ∃ v, fischer_prim g radii p = .ok v := by
  rcases hinds : p.inds with _ | ⟨x, _ | ⟨y, _ | ⟨z, _ | ⟨w, _ | ⟨u, rest⟩⟩⟩⟩⟩ <;>
    simp [hinds] at h ⊢ <;> simp [fischer_prim, hinds]

theorem fischer_guess_ok (cr : String → Option ℝ) (g : Geometry) (radii : List ℝ)
    (hrad : covRadii cr g = .ok radii)
    (harity : ∀ p ∈ g.prims, p.inds.length = 2 ∨ p.inds.length = 3 ∨ p.inds.length = 4) :
    ∃ d, fischer_guess cr g = .ok d ∧ d.length = g.prims.length ∧
      ∀ k, k < g.prims.length →
        fischer_prim g radii (g.prims.getD k default) = .ok (d.getD k 0) := by
  obtain ⟨d, hd, hlen, -⟩ := mapE_forall (fischer_prim g radii) (fun _ => True) g.prims
    (fun p hp => by obtain ⟨v, hv⟩ := fischer_prim_ok g radii p (harity p hp); exact ⟨v, hv, trivial⟩)
  refine ⟨d, ?_, hlen, ?_⟩
  · simp only [fischer_guess, hrad, Bind.bind, Except.bind, hd]
  · exact fun k hk => (mapE_get (fischer_prim g radii) default 0 g.prims d hd).2 k hk

/-! ### C2: the Fischer bend force constant -/

/-- C2: for a bend primitive `[b, a, c]` (central atom `a`), the Fischer
guess assigns `0.089 + 0.11 * (r_ab_cov * r_ac_cov) ^ 0.42 *
exp (-0.44 * (r_ab + r_ac - r_ab_cov - r_ac_cov))`: the Python expression
`0.11/(r_ab_cov*r_ac_cov)**(-0.42)` is a positive 0.42 exponent on the
product of covalent-radius sums. -/
theorem C2_fischer_bend (cr : String → Option ℝ) (g : Geometry) (radii : List ℝ)
    (k b a c : ℕ)
    (hrad : covRadii cr g = .ok radii)
    (harity : ∀ p ∈ g.prims, p.inds.length = 2 ∨ p.inds.length = 3 ∨ p.inds.length = 4)
    (hk : k < g.prims.length)
    (hp : (g.prims.getD k default).inds = [b, a, c])
    (hab : a ≠ b) (hac : a ≠ c)
    (hpos : 0 < (radii.getD a 0 + radii.getD b 0) * (radii.getD a 0 + radii.getD c 0)) :
    ∃ d, fischer_guess cr g = .ok d ∧
      d.getD k 0 = 0.089 + 0.11 *
          ((radii.getD a 0 + radii.getD b 0) * (radii.getD a 0 + radii.getD c 0)) ^ (0.42 : ℝ) *
        Real.exp (-0.44 * (g.dist a b + g.dist a c -
          (radii.getD a 0 + radii.getD b 0) - (radii.getD a 0 + radii.getD c 0))) := by
  obtain ⟨d, hd, hlen, hget⟩ := fischer_guess_ok cr g radii hrad harity
  refine ⟨d, hd, ?_⟩
  have hk' := hget k hk
  have hstep : fischer_prim g radii (g.prims.getD k default) =
      .ok (fischer_h_bend g radii b a c) := by
    unfold fischer_prim
    rw [hp]
  rw [hstep] at hk'
  rw [(Except.ok.inj hk').symm]
  unfold fischer_h_bend pairCov
  rw [if_neg hab, if_neg hac,
    show ((-0.42 : ℝ)) = -(0.42 : ℝ) by norm_num,
    Real.rpow_neg hpos.le, div_eq_mul_inv, inv_inv]

/-- Witness for C2: the water-like geometry, whose bend `[1, 0, 2]` has all
covalent-radius sums equal to 2, receives the claimed bend value. -/
theorem C2_fischer_bend_witness :
    ∃ d, fischer_guess crW water = .ok d ∧
      d.getD 2 0 = 0.089 + 0.11 * ((4 : ℝ)) ^ (0.42 : ℝ) *
        Real.exp (-0.44 * (water.dist 0 1 + water.dist 0 2 - 2 - 2)) := by
  obtain ⟨d, hd, he⟩ := C2_fischer_bend crW water [1, 1, 1] 2 1 0 2
    (by rfl) (by decide) (by norm_num [water]) rfl (by decide) (by decide)
    (by norm_num [List.getD])
  refine ⟨d, hd, ?_⟩
  rw [he]
  norm_num [List.getD]

/-! ### C10: the Fischer dihedral value ignores the terminal atoms -/

/-- C10: two dihedral primitives that share the ordered central-atom pair
(positions 1 and 2 of the 4-tuple) receive the same Fischer force constant,
whatever their terminal atoms are. -/
theorem C10_fischer_dihedral_terminals (cr : String → Option ℝ) (g : Geometry)
    (radii : List ℝ) (k m c1 a b e1 c2 e2 : ℕ)
    (hrad : covRadii cr g = .ok radii)
    (harity : ∀ p ∈ g.prims, p.inds.length = 2 ∨ p.inds.length = 3 ∨ p.inds.length = 4)
    (hk : k < g.prims.length) (hm : m < g.prims.length)
    (hp1 : (g.prims.getD k default).inds = [c1, a, b, e1])
    (hp2 : (g.prims.getD m default).inds = [c2, a, b, e2]) :
    ∃ d, fischer_guess cr g = .ok d ∧ d.getD k 0 = d.getD m 0 := by
  obtain ⟨d, hd, hlen, hget⟩ := fischer_guess_ok cr g radii hrad harity
  refine ⟨d, hd, ?_⟩
  have hk' := hget k hk
  have hm' := hget m hm
  have hs1 : fischer_prim g radii (g.prims.getD k default) =
      .ok (fischer_h_dihedral g radii a b) := by
    unfold fischer_prim
    rw [hp1]
  have hs2 : fischer_prim g radii (g.prims.getD m default) =
      .ok (fischer_h_dihedral g radii a b) := by
    unfold fischer_prim
    rw [hp2]
  rw [hs1] at hk'
  rw [hs2] at hm'
  rw [(Except.ok.inj hk').symm, (Except.ok.inj hm').symm]

/-- Witness for C10: in `chain4` the dihedrals `[0, 1, 2, 3]` and
`[3, 1, 2, 0]` share the central pair (1, 2) and get equal entries. -/
theorem C10_fischer_dihedral_terminals_witness :
    ∃ d, fischer_guess crW chain4 = .ok d ∧ d.getD 5 0 = d.getD 6 0 :=
  C10_fischer_dihedral_terminals crW chain4 [1, 1, 1, 1] 5 6 0 1 2 3 3 0
    (by rfl) (by decide) (by norm_num [chain4]) (by norm_num [chain4]) rfl rfl

/-! ### C4: the Lindh chain-product formula -/

theorem rho_product_congr (r1 r2 : ℕ → ℕ → ℝ) :
    ∀ l : List ℕ, l.Chain' (fun i j => r1 i j = r2 i j) →
      rho_product r1 l = rho_product r2 l := by
  intro l
  induction l with
  | nil => intro _; rfl
  | cons i t ih =>
    cases t with
    | nil => intro _; rfl
    | cons j rest =>
      intro h
      rw [List.chain'_cons] at h
      simp only [rho_product]
      rw [h.1, ih h.2]

theorem lindh_rho_eq (g : Geometry) (radii : List ℝ) {i j : ℕ} (h : i ≠ j) :
    lindh_rho g radii i j =
      Real.exp ((if g.latoms.getD i "" ∈ first_period ∧ g.latoms.getD j "" ∈ first_period
          then (1 : ℝ)
          else if g.latoms.getD i "" ∈ first_period ∨ g.latoms.getD j "" ∈ first_period
          then 0.3949 else 0.28) *
        ((radii.getD i 0 + radii.getD j 0) ^ 2 - g.dist i j ^ 2)) := by
  unfold lindh_rho get_alpha pairCov
  rw [if_neg h, if_neg h]

theorem lindh_k_eq {n : ℕ} (h : n = 2 ∨ n = 3 ∨ n = 4) :
    lindh_k n = .ok (if n = 2 then (0.45 : ℝ) else if n = 3 then 0.15 else 0.005) := by
  rcases h with h | h | h <;> subst h <;> rfl

theorem mapE_ok_get (f : Primitive → Except GuessErr ℝ) (l : List Primitive)
    (hok : ∀ p ∈ l, ∃ v, f p = .ok v) :
    ∃ d, mapE f l = .ok d ∧ d.length = l.length ∧
      ∀ k, k < l.length → f (l.getD k default) = .ok (d.getD k 0) := by
  obtain ⟨d, hd, hlen, -⟩ := mapE_forall f (fun _ => True) l
    (fun p hp => by obtain ⟨v, hv⟩ := hok p hp; exact ⟨v, hv, trivial⟩)
  exact ⟨d, hd, hlen, fun k hk => (mapE_get f default 0 l d hd).2 k hk⟩

theorem lindh_prim_ok (g : Geometry) (radii : List ℝ) (p : Primitive)
    (h : p.inds.length = 2 ∨ p.inds.length = 3 ∨ p.inds.length = 4) :
    lindh_prim g radii p = .ok
      ((if p.inds.length = 2 then (0.45 : ℝ) else if p.inds.length = 3 then 0.15 else 0.005) *
        rho_product (lindh_rho g radii) p.inds) := by
  unfold lindh_prim
  rw [lindh_k_eq h]
  rfl

/-- C4: for every primitive with index tuple `l` (no repeated consecutive
atoms), the Lindh guess assigns the constant for its type (0.45 bonds, 0.15
bends, 0.005 dihedrals) times the product over consecutive index pairs of
`exp (alpha * (r_cov_ij ^ 2 - r_ij ^ 2))`, where `alpha` is 1.0 when both
atoms are first-period (h or he), 0.3949 when exactly one is, and 0.28
otherwise. -/
theorem C4_lindh_formula (cr : String → Option ℝ) (g : Geometry) (radii : List ℝ)
    (k : ℕ) (l : List ℕ)
    (hrad : covRadii cr g = .ok radii)
    (harity : ∀ p ∈ g.prims, p.inds.length = 2 ∨ p.inds.length = 3 ∨ p.inds.length = 4)
    (hk : k < g.prims.length)
    (hp : (g.prims.getD k default).inds = l)
    (hchain : l.Chain' (fun i j => i ≠ j)) :
    ∃ d, lindh_guess cr g = .ok d ∧
      d.getD k 0 =
        (if l.length = 2 then (0.45 : ℝ) else if l.length = 3 then 0.15 else 0.005) *
        rho_product (fun i j =>
          Real.exp ((if g.latoms.getD i "" ∈ first_period ∧ g.latoms.getD j "" ∈ first_period
              then (1 : ℝ)
              else if g.latoms.getD i "" ∈ first_period ∨ g.latoms.getD j "" ∈ first_period
              then 0.3949 else 0.28) *
            ((radii.getD i 0 + radii.getD j 0) ^ 2 - g.dist i j ^ 2))) l := by
  have hm : g.prims.getD k default ∈ g.prims := by
    rw [List.getD_eq_getElem g.prims default hk]
    exact List.getElem_mem hk
  obtain ⟨d, hd, hlen, hget⟩ := mapE_ok_get (lindh_prim g radii) g.prims
    (fun p hp' => ⟨_, lindh_prim_ok g radii p (harity p hp')⟩)
  refine ⟨d, ?_, ?_⟩
  · simp only [lindh_guess, hrad, Bind.bind, Except.bind, hd]
  · have hk' := hget k hk
    rw [lindh_prim_ok g radii _ (harity _ hm)] at hk'
    have := (Except.ok.inj hk').symm
    rw [this, hp]
    congr 1
    exact rho_product_congr _ _ l (hchain.imp fun i j hne => lindh_rho_eq g radii hne)

/-- Witness for C4: the bond `[0, 1]` of `chain4`. -/
theorem C4_lindh_formula_witness :
    ∃ d, lindh_guess crW chain4 = .ok d ∧
      d.getD 0 0 =
        (if ([0, 1] : List ℕ).length = 2 then (0.45 : ℝ)
          else if ([0, 1] : List ℕ).length = 3 then 0.15 else 0.005) *
        rho_product (fun i j =>
          Real.exp ((if chain4.latoms.getD i "" ∈ first_period ∧
              chain4.latoms.getD j "" ∈ first_period then (1 : ℝ)
              else if chain4.latoms.getD i "" ∈ first_period ∨
                chain4.latoms.getD j "" ∈ first_period then 0.3949 else 0.28) *
            ((([1, 1, 1, 1] : List ℝ).getD i 0 + ([1, 1, 1, 1] : List ℝ).getD j 0) ^ 2 -
              chain4.dist i j ^ 2))) [0, 1] :=
  C4_lindh_formula crW chain4 [1, 1, 1, 1] 0 [0, 1]
    (by rfl) (by decide) (by norm_num [chain4]) rfl (by simp [List.chain'_cons])

/-! ### C5: the Swart guess refines the spec's chain-product description -/

theorem swart_rho_eq (g : Geometry) (radii : List ℝ) {i j : ℕ} (h : i ≠ j) :
    swart_rho g radii i j = swart_spec_rho g radii i j := by
  unfold swart_rho swart_spec_rho pairCov
  rw [if_neg h, if_neg h]
  congr 1
  ring

/-- C5: the Swart guess equals the Lindh chain-product scheme with the pair
function replaced by `exp (1 - r_ij / r_cov_ij)` and the constants replaced
by 0.35 / 0.15 / 0.005 (for primitive tuples without repeated consecutive
atoms, as the data model guarantees). -/
theorem C5_swart_refines_spec (cr : String → Option ℝ) (g : Geometry)
    (hchain : ∀ p ∈ g.prims, p.inds.Chain' (fun i j => i ≠ j)) :
    swart_guess cr g = swart_spec_guess cr g := by
  unfold swart_guess swart_spec_guess
  cases hc : covRadii cr g with
  | error e => simp only [hc, Bind.bind, Except.bind]
  | ok radii =>
    simp only [hc, Bind.bind, Except.bind]
    apply mapE_congr
    intro p hp
    unfold swart_prim swart_spec_prim
    have hk : swart_k p.inds.length = swart_spec_k p.inds.length := by
      rcases p.inds.length with _ | _ | _ | _ | _ | n <;> rfl
    rw [hk]
    cases swart_spec_k p.inds.length with
    | error e => simp only [Bind.bind, Except.bind]
    | ok kv =>
      simp only [Bind.bind, Except.bind, pure, Except.pure]
      rw [rho_product_congr _ _ p.inds ((hchain p hp).imp fun i j hne => swart_rho_eq g radii hne)]

/-- Witness for C5: the two descriptions agree on `chain4`. -/
theorem C5_swart_refines_spec_witness :
    swart_guess crW chain4 = swart_spec_guess crW chain4 :=
  C5_swart_refines_spec crW chain4 (by
    intro p hp
    fin_cases hp <;> simp [List.chain'_cons])

/-! ### C3: the Fischer dihedral bond count -/

theorem deg_split (g : Geometry) (radii : List ℝ) {a b : ℕ}
    (hb : b < g.natoms) (hbond : Bonded g radii a b) :
    deg g radii a =
      ((Finset.range g.natoms).filter fun j => Bonded g radii a j ∧ j ≠ b).card + 1 := by
  unfold deg
  have hsplit : (Finset.range g.natoms).filter (fun j => Bonded g radii a j) =
      insert b ((Finset.range g.natoms).filter fun j => Bonded g radii a j ∧ j ≠ b) := by
    ext x
    simp only [Finset.mem_insert, Finset.mem_filter, Finset.mem_range]
    constructor
    · rintro ⟨hx, hbx⟩
      rcases eq_or_ne x b with h | h
      · exact Or.inl h
      · exact Or.inr ⟨hx, hbx, h⟩
    · rintro (h | ⟨hx, hbx, hne⟩)
      · subst h
        exact ⟨hb, hbond⟩
      · exact ⟨hx, hbx⟩
  rw [hsplit, Finset.card_insert_of_not_mem (by simp)]

/-- C3: for a dihedral primitive `[c, a, b, e]` whose central atoms `a, b`
are bonded, the Fischer guess assigns
`0.0015 + 14.0 * bond_sum ^ 0.57 / (r_ab * r_ab_cov) ^ 4 * exp (-2.85 * (r_ab - r_ab_cov))`
where `bond_sum` counts the bonds incident to `a` plus those incident to `b`,
counting neither occurrence of the a-b bond itself. -/
theorem C3_fischer_dihedral (cr : String → Option ℝ) (g : Geometry) (radii : List ℝ)
    (k c1 a b e1 : ℕ)
    (hrad : covRadii cr g = .ok radii)
    (harity : ∀ p ∈ g.prims, p.inds.length = 2 ∨ p.inds.length = 3 ∨ p.inds.length = 4)
    (hk : k < g.prims.length)
    (hp : (g.prims.getD k default).inds = [c1, a, b, e1])
    (hab : a ≠ b)
    (ha : a < g.natoms) (hb : b < g.natoms)
    (hbond : Bonded g radii a b) :
    ∃ d, fischer_guess cr g = .ok d ∧
      d.getD k 0 = 0.0015 + 14.0 *
          (((((Finset.range g.natoms).filter fun j => Bonded g radii a j ∧ j ≠ b).card +
             ((Finset.range g.natoms).filter fun j => Bonded g radii b j ∧ j ≠ a).card : ℕ)) : ℝ) ^
            (0.57 : ℝ) /
          (g.dist a b * (radii.getD a 0 + radii.getD b 0)) ^ (4.0 : ℝ) *
        Real.exp (-2.85 * (g.dist a b - (radii.getD a 0 + radii.getD b 0))) := by
  obtain ⟨d, hd, hlen, hget⟩ := fischer_guess_ok cr g radii hrad harity
  refine ⟨d, hd, ?_⟩
  have hk' := hget k hk
  have hstep : fischer_prim g radii (g.prims.getD k default) =
      .ok (fischer_h_dihedral g radii a b) := by
    unfold fischer_prim
    rw [hp]
  rw [hstep] at hk'
  rw [(Except.ok.inj hk').symm]
  unfold fischer_h_dihedral pairCov
  rw [if_neg hab]
  have htors : (tors_atom_bonds g radii a b : ℝ) =
      ((((Finset.range g.natoms).filter fun j => Bonded g radii a j ∧ j ≠ b).card +
        ((Finset.range g.natoms).filter fun j => Bonded g radii b j ∧ j ≠ a).card : ℕ) : ℝ) := by
    unfold tors_atom_bonds
    rw [deg_split g radii hb hbond, deg_split g radii ha hbond.symm]
    push_cast
    ring
  rw [htors]

/-- `Bonded` holds for the central pair (1, 2) of the dihedrals of `chain4`
with unit radii. -/
theorem bonded_chain4 : Bonded chain4 [1, 1, 1, 1] 1 2 := by
  refine ⟨by decide, ?_⟩
  have h1 : chain4.dist 1 2 = 1 := by
    show dist3 ((1 : ℝ), (0 : ℝ), (0 : ℝ)) ((2 : ℝ), (0 : ℝ), (0 : ℝ)) = 1
    unfold dist3
    rw [show ((1 : ℝ) - 2) ^ 2 + ((0 : ℝ) - 0) ^ 2 + ((0 : ℝ) - 0) ^ 2 = 1 by norm_num,
      Real.sqrt_one]
  rw [h1]
  unfold pairCov
  norm_num [chain4]

/-- Witness for C3: the dihedral `[0, 1, 2, 3]` of `chain4`. -/
theorem C3_fischer_dihedral_witness :
    ∃ d, fischer_guess crW chain4 = .ok d ∧
      d.getD 5 0 = 0.0015 + 14.0 *
          (((((Finset.range chain4.natoms).filter
                fun j => Bonded chain4 [1, 1, 1, 1] 1 j ∧ j ≠ 2).card +
             ((Finset.range chain4.natoms).filter
                fun j => Bonded chain4 [1, 1, 1, 1] 2 j ∧ j ≠ 1).card : ℕ)) : ℝ) ^
            (0.57 : ℝ) /
          (chain4.dist 1 2 * (([1, 1, 1, 1] : List ℝ).getD 1 0 +
            ([1, 1, 1, 1] : List ℝ).getD 2 0)) ^ (4.0 : ℝ) *
        Real.exp (-2.85 * (chain4.dist 1 2 - (([1, 1, 1, 1] : List ℝ).getD 1 0 +
          ([1, 1, 1, 1] : List ℝ).getD 2 0))) :=
  C3_fischer_dihedral crW chain4 [1, 1, 1, 1] 5 0 1 2 3
    (by rfl) (by decide) (by norm_num [chain4]) rfl (by decide)
    (by decide) (by decide) bonded_chain4

/-! ### C8: every guess is a positive-diagonal M x M matrix -/

/-- The shape the spec requires of a guess result: it succeeds with one
diagonal entry per primitive, `np.diagflat` of it is zero off the diagonal,
and every diagonal entry is strictly positive. -/
def GoodDiag (g : Geometry) (res : Except GuessErr (List ℝ)) : Prop :=
  ∃ d, res = .ok d ∧ d.length = g.prims.length ∧
    (∀ i j, i ≠ j → diagflat d i j = 0) ∧ ∀ k, k < d.length → 0 < d.getD k 0

theorem goodDiag_mk (g : Geometry) (res : Except GuessErr (List ℝ)) (d : List ℝ)
    (h : res = .ok d) (hlen : d.length = g.prims.length) (hpos : ∀ x ∈ d, 0 < x) :
    GoodDiag g res := by
  refine ⟨d, h, hlen, ?_, ?_⟩
  · intro i j hij
    unfold diagflat
    rw [if_neg hij]
  · intro k hk
    exact hpos _ (getD_mem_of_lt hk)

theorem pairCov_pos (radii : List ℝ) {i j : ℕ} (hne : i ≠ j)
    (hi : i < radii.length) (hj : j < radii.length) (hpos : ∀ r ∈ radii, 0 < r) :
    0 < pairCov radii i j := by
  unfold pairCov
  rw [if_neg hne]
  have h1 := hpos _ (getD_mem_of_lt hi)
  have h2 := hpos _ (getD_mem_of_lt hj)
  linarith

theorem fischer_h_bond_pos (g : Geometry) (radii : List ℝ) (a b : ℕ) :
    0 < fischer_h_bond g radii a b := by
  unfold fischer_h_bond
  positivity

theorem fischer_h_bend_pos (g : Geometry) (radii : List ℝ) {b a c : ℕ}
    (hab : 0 < pairCov radii a b) (hac : 0 < pairCov radii a c) :
    0 < fischer_h_bend g radii b a c := by
  unfold fischer_h_bend
  have h1 : 0 < (pairCov radii a b * pairCov radii a c) ^ (-0.42 : ℝ) :=
    Real.rpow_pos_of_pos (mul_pos hab hac) _
  have h2 : 0 < (0.11 : ℝ) / (pairCov radii a b * pairCov radii a c) ^ (-0.42 : ℝ) :=
    div_pos (by norm_num) h1
  have h3 := mul_pos h2 (Real.exp_pos
    (-0.44 * (g.dist a b + g.dist a c - pairCov radii a b - pairCov radii a c)))
  linarith

theorem one_le_deg (g : Geometry) (radii : List ℝ) {a b : ℕ}
    (hb : b < g.natoms) (hbond : Bonded g radii a b) : 1 ≤ deg g radii a := by
  unfold deg
  refine Finset.card_pos.mpr ⟨b, ?_⟩
  simp only [Finset.mem_filter, Finset.mem_range]
  exact ⟨hb, hbond⟩

theorem fischer_h_dihedral_pos (g : Geometry) (radii : List ℝ) {a b : ℕ}
    (ha : a < g.natoms) (hb : b < g.natoms)
    (hdab : 0 < g.dist a b) (hcab : 0 < pairCov radii a b)
    (hbond : Bonded g radii a b) :
    0 < fischer_h_dihedral g radii a b := by
  unfold fischer_h_dihedral
  have hs : (0 : ℤ) ≤ tors_atom_bonds g radii a b := by
    unfold tors_atom_bonds
    have h1 := one_le_deg g radii hb hbond
    have h2 := one_le_deg g radii ha hbond.symm
    omega
  have h1 : 0 ≤ (tors_atom_bonds g radii a b : ℝ) ^ (0.57 : ℝ) :=
    Real.rpow_nonneg (by exact_mod_cast hs) _
  have h2 : 0 < (g.dist a b * pairCov radii a b) ^ (4.0 : ℝ) :=
    Real.rpow_pos_of_pos (mul_pos hdab hcab) _
  have h3 : 0 ≤ 14.0 * (tors_atom_bonds g radii a b : ℝ) ^ (0.57 : ℝ) /
      (g.dist a b * pairCov radii a b) ^ (4.0 : ℝ) *
      Real.exp (-2.85 * (g.dist a b - pairCov radii a b)) :=
    mul_nonneg (div_nonneg (mul_nonneg (by norm_num) h1) h2.le) (Real.exp_pos _).le
  linarith

theorem rho_product_pos (rho : ℕ → ℕ → ℝ) :
    ∀ l : List ℕ, l.Chain' (fun i j => 0 < rho i j) → 0 < rho_product rho l := by
  intro l
  induction l with
  | nil => intro _; norm_num [rho_product]
  | cons i t ih =>
    cases t with
    | nil => intro _; norm_num [rho_product]
    | cons j rest =>
      intro h
      rw [List.chain'_cons] at h
      simp only [rho_product]
      exact mul_pos h.1 (ih h.2)

theorem lindh_rho_pos (g : Geometry) (radii : List ℝ) {i j : ℕ} (h : i ≠ j) :
    0 < lindh_rho g radii i j := by
  unfold lindh_rho
  rw [if_neg h]
  exact Real.exp_pos _

theorem swart_rho_pos (g : Geometry) (radii : List ℝ) {i j : ℕ} (h : i ≠ j) :
    0 < swart_rho g radii i j := by
  unfold swart_rho
  rw [if_neg h]
  exact Real.exp_pos _

/-- C8: on a well-formed geometry (known elements with positive radii,
primitives of arity 2/3/4 over in-range pairwise-distinct indices, dihedral
central pairs bonded) with all interatomic distances strictly positive, each
of the four guess generators returns a matrix with one strictly positive
diagonal entry per primitive and zeros off the diagonal. -/
theorem C8_guesses_positive_diagonal (cr : String → Option ℝ) (g : Geometry)
    (radii : List ℝ)
    (hrad : covRadii cr g = .ok radii)
    (hradpos : ∀ r ∈ radii, 0 < r)
    (harity : ∀ p ∈ g.prims, p.inds.length = 2 ∨ p.inds.length = 3 ∨ p.inds.length = 4)
    (hinds : ∀ p ∈ g.prims, ∀ i ∈ p.inds, i < g.natoms)
    (hchain : ∀ p ∈ g.prims, p.inds.Chain' (fun i j => i ≠ j))
    (hdist : ∀ i j, i < g.natoms → j < g.natoms → i ≠ j → 0 < g.dist i j)
    (hdih : ∀ p ∈ g.prims, ∀ c a b e, p.inds = [c, a, b, e] → Bonded g radii a b) :
    GoodDiag g (simple_guess g) ∧ GoodDiag g (fischer_guess cr g) ∧
      GoodDiag g (lindh_guess cr g) ∧ GoodDiag g (swart_guess cr g) := by
  have hrlen : radii.length = g.natoms := by
    have h := (mapE_get (fun a => match cr a with
      | some r => .ok r
      | none => .error .unknownElement) "" 0 g.latoms radii hrad).1
    rw [h]
    simp [Geometry.latoms, Geometry.natoms]
  refine ⟨?_, ?_, ?_, ?_⟩
  · -- simple
    obtain ⟨d, hd, hlen, hP⟩ := mapE_forall (fun p => simple_k p.inds.length)
      (fun x => 0 < x) g.prims (fun p hp => by
        refine ⟨_, simple_k_eq (harity p hp), ?_⟩
        rcases harity p hp with h | h | h <;> rw [h] <;> norm_num)
    exact goodDiag_mk g _ d hd hlen hP
  · -- fischer
    have hall : ∀ p ∈ g.prims, ∃ v, fischer_prim g radii p = .ok v ∧ 0 < v := by
      intro p hp
      rcases hshape : p.inds with _ | ⟨x, _ | ⟨y, _ | ⟨z, _ | ⟨w, _ | ⟨u, rest⟩⟩⟩⟩⟩ <;>
        rcases harity p hp with h | h | h <;> rw [hshape] at h <;> simp at h
      · -- bond [x, y]
        exact ⟨_, by unfold fischer_prim; rw [hshape], fischer_h_bond_pos g radii x y⟩
      · -- bend [x, y, z]
        have hch := hchain p hp
        rw [hshape, List.chain'_cons] at hch
        have hyx : y ≠ x := hch.1.symm
        have hyz : y ≠ z := (List.chain'_cons.mp hch.2).1
        have hxin : x < g.natoms := hinds p hp x (by rw [hshape]; simp)
        have hyin : y < g.natoms := hinds p hp y (by rw [hshape]; simp)
        have hzin : z < g.natoms := hinds p hp z (by rw [hshape]; simp)
        refine ⟨_, by unfold fischer_prim; rw [hshape], fischer_h_bend_pos g radii ?_ ?_⟩
        · exact pairCov_pos radii hyx (hrlen ▸ hyin) (hrlen ▸ hxin) hradpos
        · exact pairCov_pos radii hyz (hrlen ▸ hyin) (hrlen ▸ hzin) hradpos
      · -- dihedral [x, y, z, w]
        have hch := hchain p hp
        rw [hshape, List.chain'_cons] at hch
        have hyz : y ≠ z := (List.chain'_cons.mp hch.2).1
        have hyin : y < g.natoms := hinds p hp y (by rw [hshape]; simp)
        have hzin : z < g.natoms := hinds p hp z (by rw [hshape]; simp)
        have hbond := hdih p hp x y z w hshape
        refine ⟨_, by unfold fischer_prim; rw [hshape], ?_⟩
        exact fischer_h_dihedral_pos g radii hyin hzin
          (hdist y z hyin hzin hyz)
          (pairCov_pos radii hyz (hrlen ▸ hyin) (hrlen ▸ hzin) hradpos) hbond
    obtain ⟨d, hd, hlen, hP⟩ := mapE_forall (fischer_prim g radii)
      (fun x => 0 < x) g.prims hall
    refine goodDiag_mk g _ d ?_ hlen hP
    simp only [fischer_guess, hrad, Bind.bind, Except.bind, hd]
  · -- lindh
    have hall : ∀ p ∈ g.prims, ∃ v, lindh_prim g radii p = .ok v ∧ 0 < v := by
      intro p hp
      refine ⟨_, lindh_prim_ok g radii p (harity p hp), mul_pos ?_ ?_⟩
      · rcases harity p hp with h | h | h <;> rw [h] <;> norm_num
      · exact rho_product_pos _ p.inds
          ((hchain p hp).imp fun i j hne => lindh_rho_pos g radii hne)
    obtain ⟨d, hd, hlen, hP⟩ := mapE_forall (lindh_prim g radii)
      (fun x => 0 < x) g.prims hall
    refine goodDiag_mk g _ d ?_ hlen hP
    simp only [lindh_guess, hrad, Bind.bind, Except.bind, hd]
  · -- swart
    have hall : ∀ p ∈ g.prims, ∃ v, swart_prim g radii p = .ok v ∧ 0 < v := by
      intro p hp
      have hk : swart_k p.inds.length =
          .ok (if p.inds.length = 2 then (0.35 : ℝ)
            else if p.inds.length = 3 then 0.15 else 0.005) := by
        rcases harity p hp with h | h | h <;> rw [h] <;> rfl
      refine ⟨(if p.inds.length = 2 then (0.35 : ℝ)
          else if p.inds.length = 3 then 0.15 else 0.005) *
          rho_product (swart_rho g radii) p.inds, ?_, mul_pos ?_ ?_⟩
      · unfold swart_prim
        rw [hk]
        rfl
      · rcases harity p hp with h | h | h <;> rw [h] <;> norm_num
      · exact rho_product_pos _ p.inds
          ((hchain p hp).imp fun i j hne => swart_rho_pos g radii hne)
    obtain ⟨d, hd, hlen, hP⟩ := mapE_forall (swart_prim g radii)
      (fun x => 0 < x) g.prims hall
    refine goodDiag_mk g _ d ?_ hlen hP
    simp only [swart_guess, hrad, Bind.bind, Except.bind, hd]

theorem chain4_dist_pos :
    ∀ i j : ℕ, i < chain4.natoms → j < chain4.natoms → i ≠ j → 0 < chain4.dist i j := by
  have h : ∀ x y : ℝ, x ≠ y → 0 < dist3 (x, 0, 0) (y, 0, 0) := by
    intro x y hxy
    unfold dist3
    rw [Real.sqrt_pos]
    have hne0 : x - y ≠ 0 := sub_ne_zero.mpr hxy
    have h2 : 0 < (x - y) ^ 2 := by positivity
    have h3 : ((0 : ℝ) - 0) ^ 2 = 0 := by norm_num
    linarith
  intro i j hi hj hne
  have hi4 : i < 4 := hi
  have hj4 : j < 4 := hj
  interval_cases i <;> interval_cases j <;>
    first
      | exact absurd rfl hne
      | exact h 0 1 (by norm_num)
      | exact h 0 2 (by norm_num)
      | exact h 0 3 (by norm_num)
      | exact h 1 0 (by norm_num)
      | exact h 1 2 (by norm_num)
      | exact h 1 3 (by norm_num)
      | exact h 2 0 (by norm_num)
      | exact h 2 1 (by norm_num)
      | exact h 2 3 (by norm_num)
      | exact h 3 0 (by norm_num)
      | exact h 3 1 (by norm_num)
      | exact h 3 2 (by norm_num)

/-- Witness for C8: all four guesses are positive-diagonal on `chain4`. -/
theorem C8_guesses_positive_diagonal_witness :
    GoodDiag chain4 (simple_guess chain4) ∧ GoodDiag chain4 (fischer_guess crW chain4) ∧
      GoodDiag chain4 (lindh_guess crW chain4) ∧ GoodDiag chain4 (swart_guess crW chain4) := by
  refine C8_guesses_positive_diagonal crW chain4 [1, 1, 1, 1]
    (by rfl)
    (by intro r hr; fin_cases hr <;> norm_num)
    (by decide)
    (by decide)
    (by intro p hp; fin_cases hp <;> simp [List.chain'_cons])
    chain4_dist_pos
    ?_
  intro p hp c a b e h
  fin_cases hp
  · exact absurd h (by simp)
  · exact absurd h (by simp)
  · exact absurd h (by simp)
  · exact absurd h (by simp)
  · exact absurd h (by simp)
  · simp only [List.cons.injEq, and_true] at h
    obtain ⟨h1, h2, h3, h4⟩ := h
    subst h2
    subst h3
    exact bonded_chain4
  · simp only [List.cons.injEq, and_true] at h
    obtain ⟨h1, h2, h3, h4⟩ := h
    subst h2
    subst h3
    exact bonded_chain4

/-! ### C9: element symbols enter only through their lower-cased form -/

/-- C9: two geometries that agree up to the letter case of their element
symbols (and share coordinates, primitives and bond factor) receive
identical output from all four guess generators. -/
theorem C9_case_insensitive (cr : String → Option ℝ) (g1 g2 : Geometry)
    (hat : g1.atoms.map strLower = g2.atoms.map strLower)
    (hco : g1.coords3d = g2.coords3d)
    (hpr : g1.prims = g2.prims)
    (hbf : g1.bond_factor = g2.bond_factor) :
    simple_guess g1 = simple_guess g2 ∧
      fischer_guess cr g1 = fischer_guess cr g2 ∧
      lindh_guess cr g1 = lindh_guess cr g2 ∧
      swart_guess cr g1 = swart_guess cr g2 := by
  have hL : g1.latoms = g2.latoms := hat
  have hN : g1.natoms = g2.natoms := by
    have h := congrArg List.length hL
    simpa [Geometry.latoms, Geometry.natoms] using h
  have hd : g1.dist = g2.dist := by
    funext i j
    unfold Geometry.dist
    rw [hco]
  have hcv : covRadii cr g1 = covRadii cr g2 := by
    unfold covRadii
    rw [hL]
  have hdeg : ∀ radii a, deg g1 radii a = deg g2 radii a := by
    intro radii a
    unfold deg
    rw [hN]
    congr 1
    apply Finset.filter_congr
    intro x hx
    unfold Bonded
    rw [hd, hbf]
  have htors : ∀ radii a b, tors_atom_bonds g1 radii a b = tors_atom_bonds g2 radii a b := by
    intro radii a b
    unfold tors_atom_bonds
    rw [hdeg, hdeg]
  have hfp : ∀ radii, fischer_prim g1 radii = fischer_prim g2 radii := by
    intro radii
    funext p
    unfold fischer_prim
    cases hinds : p.inds with
    | nil => rfl
    | cons x t =>
      cases t with
      | nil => rfl
      | cons y t2 =>
        cases t2 with
        | nil =>
          show Except.ok (fischer_h_bond g1 radii x y) = .ok (fischer_h_bond g2 radii x y)
          unfold fischer_h_bond
          rw [hd]
        | cons z t3 =>
          cases t3 with
          | nil =>
            show Except.ok (fischer_h_bend g1 radii x y z) =
              .ok (fischer_h_bend g2 radii x y z)
            unfold fischer_h_bend
            rw [hd]
          | cons w t4 =>
            cases t4 with
            | nil =>
              show Except.ok (fischer_h_dihedral g1 radii y z) =
                .ok (fischer_h_dihedral g2 radii y z)
              unfold fischer_h_dihedral
              rw [hd, htors]
            | cons u t5 => rfl
  have hlr : ∀ radii, lindh_rho g1 radii = lindh_rho g2 radii := by
    intro radii
    funext i j
    unfold lindh_rho
    rw [hL, hd]
  have hsr : ∀ radii, swart_rho g1 radii = swart_rho g2 radii := by
    intro radii
    funext i j
    unfold swart_rho
    rw [hd]
  refine ⟨?_, ?_, ?_, ?_⟩
  · unfold simple_guess
    rw [hpr]
  · unfold fischer_guess
    rw [hcv, hpr]
    have hfun : (fun radii => mapE (fischer_prim g1 radii) g2.prims) =
        (fun radii => mapE (fischer_prim g2 radii) g2.prims) := by
      funext radii
      rw [hfp]
    rw [hfun]
  · unfold lindh_guess
    rw [hcv, hpr]
    have hfun : (fun radii => mapE (lindh_prim g1 radii) g2.prims) =
        (fun radii => mapE (lindh_prim g2 radii) g2.prims) := by
      funext radii
      unfold lindh_prim
      rw [hlr]
    rw [hfun]
  · unfold swart_guess
    rw [hcv, hpr]
    have hfun : (fun radii => mapE (swart_prim g1 radii) g2.prims) =
        (fun radii => mapE (swart_prim g2 radii) g2.prims) := by
      funext radii
      unfold swart_prim
      rw [hsr]
    rw [hfun]

/-- Witness for C9: `water` and its upper-cased copy `waterU` agree under
all four guess generators. -/
theorem C9_case_insensitive_witness :
    simple_guess water = simple_guess waterU ∧
      fischer_guess crW water = fischer_guess crW waterU ∧
      lindh_guess crW water = lindh_guess crW waterU ∧
      swart_guess crW water = swart_guess crW waterU :=
  C9_case_insensitive crW water waterU (by decide) rfl rfl rfl

end GuessHessians
